import Mathlib

/-!
Verification of the ordered parallel-map iterator library.

The repository provides an ordered parallel-map execution engine
(`threaded.rs` and `stateful_threaded.rs`) plus simple sequential
adapters (`buffered.rs`, `interleave.rs`, ...).  We shallowly embed the
engine with each worker modelled as an in-order one-item pipeline: a
worker is represented by the queue of items that have been dispatched to
it (sent into its capacity-1 mailbox) and not yet retrieved (received
from its capacity-0 rendezvous).  A worker thread processes its inputs
strictly in order, so the value retrieved from a worker is the image
under the transformation of the oldest dispatched item; the embedding
applies the transformation at retrieval time, which yields the same
values.  Sources are finite lists; `inner.next()` is `head?`/`tail`.
Operations that panic or block forever are modelled with `Option`
results (`none` = panic/deadlock).
-/

section ThreadedDefs

variable {FI FO : Type}

/-- State of `ThreadedIterator` (threaded.rs).  Each worker is modelled
by the queue of work items dispatched to it and not yet retrieved,
oldest first.  `inner` is the remaining source, `input_index` and
`num_processing` are the two counters of the Rust struct. -/
structure ThreadedIterator (FI : Type) where
  inner : List FI
  workers : List (List (Option FI))
  input_index : Nat
  num_processing : Nat

/-- One iteration of the `fill_buffer` loop body (threaded.rs lines
75-80): pull `val` from the source, send it to the worker at
`input_index`, advance `input_index` cyclically, increment
`num_processing`. -/
def sendStep (s : ThreadedIterator FI) : ThreadedIterator FI :=
  let val := s.inner.head?
  { inner := s.inner.tail
    workers := s.workers.set s.input_index (s.workers.getD s.input_index [] ++ [val])
    input_index := (s.input_index + 1) % s.workers.length
    num_processing := s.num_processing + 1 }

/-- The `while self.num_processing < self.workers.len()` loop of
`fill_buffer`, with explicit fuel.  Each iteration increments
`num_processing`, so `workers.length - num_processing` is exactly the
number of iterations the loop performs. -/
def fill_buffer_aux : Nat → ThreadedIterator FI → ThreadedIterator FI
  | 0, s => s
  | fuel + 1, s =>
    if s.num_processing < s.workers.length then fill_buffer_aux fuel (sendStep s) else s

/-- `ThreadedIterator::fill_buffer` (threaded.rs lines 73-82). -/
def fill_buffer (s : ThreadedIterator FI) : ThreadedIterator FI :=
  fill_buffer_aux (s.workers.length - s.num_processing) s

/-- `ThreadedIterator::output_index` (threaded.rs lines 84-87). -/
def output_index (s : ThreadedIterator FI) : Nat :=
  (2 * s.workers.length + s.input_index - s.num_processing) % s.workers.length

/-- The body of the worker thread for one received item (threaded.rs
line 26): `item.map(&func)`.  An end-marker (`none`) passes through
without the transformation being invoked. -/
def workerStep (f : FI → FO) (item : Option FI) : Option FO :=
  item.map f

/-- `ThreadedIterator::next` (threaded.rs lines 98-105): receive from
the worker at `output_index` (the result is the worker's oldest
dispatched item pushed through the transformation), decrement
`num_processing`, refill, return the value.  Returns `none` when the
receive cannot produce a value (worker index out of range or nothing
in flight on that worker: a panic or deadlock in the real program). -/
def nextTI (f : FI → FO) (s : ThreadedIterator FI) :
    Option (Option FO × ThreadedIterator FI) :=
  match s.workers.getD (output_index s) [] with
  | [] => none
  | v :: rest =>
    let s1 : ThreadedIterator FI :=
      { s with
        workers := s.workers.set (output_index s) rest
        num_processing := s.num_processing - 1 }
    some (workerStep f v, fill_buffer s1)

/-- `ThreadedIterator::new` (threaded.rs lines 54-70) with the pool
size `N` (the value of `available_parallelism().unwrap().get()`)
passed explicitly: build `N` idle workers, then perform the initial
fill. -/
def ThreadedIterator.new (N : Nat) (src : List FI) : ThreadedIterator FI :=
  fill_buffer
    { inner := src
      workers := List.replicate N []
      input_index := 0
      num_processing := 0 }

/-- Repeatedly call `next`, collecting yielded values until the
iterator yields `none` (end of sequence); `none` overall if fuel runs
out or a call to `next` panics/deadlocks. -/
def runTI (f : FI → FO) : Nat → ThreadedIterator FI → Option (List FO)
  | 0, _ => none
  | fuel + 1, s =>
    match nextTI f s with
    | none => none
    | some (none, _) => some []
    | some (some v, s') => (runTI f fuel s').map (fun l => v :: l)

/-- Collecting `par_map`: construct the iterator over `src` with pool
size `N` and transformation `f` and drain it. -/
def collectTI (f : FI → FO) (N : Nat) (src : List FI) : Option (List FO) :=
  runTI f (src.length + 1) (ThreadedIterator.new N src)

/-- `next` followed by discarding the yielded value (state evolution of
one pull); identity when `next` panics. -/
def stepTI (f : FI → FO) (s : ThreadedIterator FI) : ThreadedIterator FI :=
  match nextTI f s with
  | some (_, s') => s'
  | none => s

/-- State after `t` pulls from the iterator. -/
def iterTI (f : FI → FO) (s : ThreadedIterator FI) : Nat → ThreadedIterator FI
  | 0 => s
  | t + 1 => stepTI f (iterTI f s t)

/-- The first `m` items of the virtual work stream of a source `l`:
its values wrapped in `some`, padded with end-markers (`none`) once
the source is exhausted. -/
def padTakeOpt (m : Nat) (l : List FI) : List (Option FI) :=
  (l.take m).map some ++ List.replicate (m - l.length) none

/-- Dispatch the items `vs` round-robin to the workers starting at
index `i`, appending each to the target worker's queue: the
specification-side description of what the fill loop's sends do. -/
def sendAll : List (List (Option FI)) → Nat → List (Option FI) → List (List (Option FI))
  | ws, _, [] => ws
  | ws, i, v :: vs => sendAll (ws.set i (ws.getD i [] ++ [v])) ((i + 1) % ws.length) vs

/-- The worker pool holding the pending items `pending` (dispatch
order, oldest first), where the oldest is due at the worker that is
`pending.length` dispatch positions behind `i`: worker `j` holds the
single pending item number `(N + j - i) % N`. -/
def mkWorkers (N i : Nat) (pending : List (Option FI)) : List (List (Option FI)) :=
  (List.range N).map (fun j => [pending.getD ((N + j - i) % N) none])

/-- Canonical saturated state: pool of `N` workers each holding one
pending item, next dispatch at `i`, remaining source `inner`. -/
def mkState (N i : Nat) (pending : List (Option FI)) (inner : List FI) :
    ThreadedIterator FI :=
  ⟨inner, mkWorkers N i pending, i, N⟩

end ThreadedDefs

section ThreadedSafetyDefs

variable {FI : Type}

/-- Instrumented mirror of the `fill_buffer` loop that checks, at each
send, that the target worker currently holds nothing at all (its queue
is empty), which in particular means its capacity-1 mailbox is empty:
the send cannot find the mailbox full and cannot block. -/
def fill_sends_ok : Nat → ThreadedIterator FI → Bool
  | 0, _ => true
  | fuel + 1, s =>
    if s.num_processing < s.workers.length then
      (s.workers.getD s.input_index []).isEmpty && fill_sends_ok fuel (sendStep s)
    else true

/-- All sends performed by the initial fill at construction target
workers with empty queues. -/
def constructSendsOk (N : Nat) (src : List FI) : Bool :=
  fill_sends_ok N
    { inner := src
      workers := List.replicate N []
      input_index := 0
      num_processing := 0 }

/-- All sends performed by the fill inside one call to `next` target
workers with empty queues (trivially true if the receive itself cannot
proceed). -/
def nextSendsOk (s : ThreadedIterator FI) : Bool :=
  match s.workers.getD (output_index s) [] with
  | [] => true
  | _ :: rest =>
    let s1 : ThreadedIterator FI :=
      { s with
        workers := s.workers.set (output_index s) rest
        num_processing := s.num_processing - 1 }
    fill_sends_ok (s1.workers.length - s1.num_processing) s1

end ThreadedSafetyDefs

section ParallelismDefs

variable {FI : Type}

/-- `ThreadedIterator::new` including the platform query: the result of
`available_parallelism()` is `some n` (with `n` the reported
parallelism) or `none` (platform cannot report it).  `unwrap()` panics
in the latter case, modelled as `none`: construction fails fatally with
no fallback. -/
def newTIWithParallelism (ap : Option Nat) (src : List FI) :
    Option (ThreadedIterator FI) :=
  match ap with
  | none => none
  | some n => some (ThreadedIterator.new n src)

end ParallelismDefs

section StatefulDefs

variable {S FI FO : Type}

/-- A worker of the stateful variant (stateful_threaded.rs): its
exclusively owned mutable state plus the queue of items dispatched to
it and not yet retrieved, oldest first. -/
structure StatefulWorker (S FI : Type) where
  state : S
  queue : List (Option FI)

/-- State of `ThreadedStatefulIterator` (stateful_threaded.rs). -/
structure ThreadedStatefulIterator (S FI : Type) where
  inner : List FI
  workers : List (StatefulWorker S FI)
  input_index : Nat
  num_processing : Nat

/-- The body of the stateful worker thread for one received item
(stateful_threaded.rs line 32): `item.map(|x| func(&mut state, x))`.
The transformation `f` returns the output together with the updated
state; an end-marker passes through with the state untouched and the
transformation not invoked. -/
def statefulWorkerStep (f : S → FI → FO × S) (st : S) (item : Option FI) :
    Option FO × S :=
  match item with
  | none => (none, st)
  | some x => (some (f st x).1, (f st x).2)

/-- One iteration of the stateful `fill_buffer` loop body
(stateful_threaded.rs lines 86-91). -/
def sendStepS (s : ThreadedStatefulIterator S FI) : ThreadedStatefulIterator S FI :=
  let val := s.inner.head?
  { inner := s.inner.tail
    workers :=
      match s.workers[s.input_index]? with
      | some w => s.workers.set s.input_index ⟨w.state, w.queue ++ [val]⟩
      | none => s.workers
    input_index := (s.input_index + 1) % s.workers.length
    num_processing := s.num_processing + 1 }

/-- The stateful `fill_buffer` loop with explicit fuel. -/
def fill_buffer_auxS : Nat → ThreadedStatefulIterator S FI → ThreadedStatefulIterator S FI
  | 0, s => s
  | fuel + 1, s =>
    if s.num_processing < s.workers.length then fill_buffer_auxS fuel (sendStepS s) else s

/-- `ThreadedStatefulIterator::fill_buffer` (stateful_threaded.rs lines 84-93). -/
def fill_bufferS (s : ThreadedStatefulIterator S FI) : ThreadedStatefulIterator S FI :=
  fill_buffer_auxS (s.workers.length - s.num_processing) s

/-- `ThreadedStatefulIterator::output_index` (stateful_threaded.rs lines 95-98). -/
def output_indexS (s : ThreadedStatefulIterator S FI) : Nat :=
  (2 * s.workers.length + s.input_index - s.num_processing) % s.workers.length

/-- `ThreadedStatefulIterator::next` (stateful_threaded.rs lines
109-116): receive from the due worker (the retrieved value is the
worker's oldest dispatched item pushed through the transformation with
that worker's own state, which only this processing updates),
decrement `num_processing`, refill, return the value. -/
def nextTS (f : S → FI → FO × S) (s : ThreadedStatefulIterator S FI) :
    Option (Option FO × ThreadedStatefulIterator S FI) :=
  match s.workers[output_indexS s]? with
  | none => none
  | some w =>
    match w.queue with
    | [] => none
    | v :: rest =>
      let r := statefulWorkerStep f w.state v
      let s1 : ThreadedStatefulIterator S FI :=
        { s with
          workers := s.workers.set (output_indexS s) ⟨r.2, rest⟩
          num_processing := s.num_processing - 1 }
      some (r.1, fill_bufferS s1)

/-- `ThreadedStatefulIterator::new` (stateful_threaded.rs lines 61-81)
with the pool size `N` passed explicitly: each of the `N` workers gets
its own clone of the initial state, then the initial fill runs. -/
def ThreadedStatefulIterator.new (N : Nat) (st : S) (src : List FI) :
    ThreadedStatefulIterator S FI :=
  fill_bufferS
    { inner := src
      workers := List.replicate N ⟨st, []⟩
      input_index := 0
      num_processing := 0 }

/-- Drain the stateful iterator. -/
def runTS (f : S → FI → FO × S) :
    Nat → ThreadedStatefulIterator S FI → Option (List FO)
  | 0, _ => none
  | fuel + 1, s =>
    match nextTS f s with
    | none => none
    | some (none, _) => some []
    | some (some v, s') => (runTS f fuel s').map (fun l => v :: l)

/-- Collecting `stateful_par_map` with pool size `N`. -/
def collectTS (f : S → FI → FO × S) (N : Nat) (st : S) (src : List FI) :
    Option (List FO) :=
  runTS f (src.length + 1) (ThreadedStatefulIterator.new N st src)

/-- State evolution of one pull of the stateful iterator. -/
def stepTS (f : S → FI → FO × S) (s : ThreadedStatefulIterator S FI) :
    ThreadedStatefulIterator S FI :=
  match nextTS f s with
  | some (_, s') => s'
  | none => s

/-- Stateful iterator state after `t` pulls. -/
def iterTS (f : S → FI → FO × S) (s : ThreadedStatefulIterator S FI) :
    Nat → ThreadedStatefulIterator S FI
  | 0 => s
  | t + 1 => stepTS f (iterTS f s t)

/-- Round-robin dispatch description for the stateful pool, mirroring
`sendAll`. -/
def sendAllS : List (StatefulWorker S FI) → Nat → List (Option FI) →
    List (StatefulWorker S FI)
  | ws, _, [] => ws
  | ws, i, v :: vs =>
    sendAllS
      (match ws[i]? with
       | some w => ws.set i ⟨w.state, w.queue ++ [v]⟩
       | none => ws)
      ((i + 1) % ws.length) vs

end StatefulDefs

section StatefulLogDefs

variable {S FI FO : Type}

/-- Send-log instrumentation of the stateful engine: identical to
`sendStepS` but also records which worker index received which item,
so that the dispatch pattern of a run can be observed. -/
def sendStepSLog (s : ThreadedStatefulIterator S FI)
    (log : List (Nat × Option FI)) :
    ThreadedStatefulIterator S FI × List (Nat × Option FI) :=
  (sendStepS s, log ++ [(s.input_index, s.inner.head?)])

/-- Log-instrumented fill loop, mirroring `fill_buffer_auxS`. -/
def fill_buffer_auxSLog :
    Nat → ThreadedStatefulIterator S FI × List (Nat × Option FI) →
      ThreadedStatefulIterator S FI × List (Nat × Option FI)
  | 0, p => p
  | fuel + 1, (s, log) =>
    if s.num_processing < s.workers.length then
      fill_buffer_auxSLog fuel (sendStepSLog s log)
    else (s, log)

/-- Log-instrumented `fill_bufferS`. -/
def fill_bufferSLog (p : ThreadedStatefulIterator S FI × List (Nat × Option FI)) :
    ThreadedStatefulIterator S FI × List (Nat × Option FI) :=
  fill_buffer_auxSLog (p.1.workers.length - p.1.num_processing) p

/-- Log-instrumented construction. -/
def newTSLog (N : Nat) (st : S) (src : List FI) :
    ThreadedStatefulIterator S FI × List (Nat × Option FI) :=
  fill_bufferSLog
    (⟨src, List.replicate N ⟨st, []⟩, 0, 0⟩, [])

/-- Log-instrumented `nextTS`. -/
def nextTSLog (f : S → FI → FO × S)
    (p : ThreadedStatefulIterator S FI × List (Nat × Option FI)) :
    Option (Option FO × (ThreadedStatefulIterator S FI × List (Nat × Option FI))) :=
  match p.1.workers[output_indexS p.1]? with
  | none => none
  | some w =>
    match w.queue with
    | [] => none
    | v :: rest =>
      let r := statefulWorkerStep f w.state v
      let s1 : ThreadedStatefulIterator S FI :=
        { p.1 with
          workers := p.1.workers.set (output_indexS p.1) ⟨r.2, rest⟩
          num_processing := p.1.num_processing - 1 }
      some (r.1, fill_bufferSLog (s1, p.2))

/-- Drain the log-instrumented stateful iterator, returning the output
values together with the full send log. -/
def runTSLog (f : S → FI → FO × S) :
    Nat → ThreadedStatefulIterator S FI × List (Nat × Option FI) →
      Option (List FO × List (Nat × Option FI))
  | 0, _ => none
  | fuel + 1, p =>
    match nextTSLog f p with
    | none => none
    | some (none, p') => some ([], p'.2)
    | some (some v, p') => (runTSLog f fuel p').map (fun r => (v :: r.1, r.2))

/-- `ThreadedStatefulIterator::new` including the platform query,
modelled as for the stateless variant. -/
def newTSWithParallelism (ap : Option Nat) (st : S) (src : List FI) :
    Option (ThreadedStatefulIterator S FI) :=
  match ap with
  | none => none
  | some n => some (ThreadedStatefulIterator.new n st src)

end StatefulLogDefs

section BufferedDefs

variable {T : Type}

/-- State of `BufferedIterator` (buffered.rs): remaining source, the
`VecDeque` buffer (front = head of the list), and `max_capacity`. -/
structure BufferedIterator (T : Type) where
  inner : List T
  buffer : List (Option T)
  max_capacity : Nat

/-- `BufferedIterator::new` (buffered.rs lines 11-17). -/
def BufferedIterator.new (src : List T) (capacity : Nat) : BufferedIterator T :=
  { inner := src, buffer := [], max_capacity := capacity }

/-- The `while self.buffer.len() < self.max_capacity` loop of the
buffered `fill_buffer` (buffered.rs lines 31-37), with explicit fuel:
push the next source value (or `none` on exhaustion) to the back and
return early as soon as a `none` was pushed. -/
def fill_buffer_auxB : Nat → BufferedIterator T → BufferedIterator T
  | 0, s => s
  | fuel + 1, s =>
    if s.buffer.length < s.max_capacity then
      let val := s.inner.head?
      let s' : BufferedIterator T :=
        { s with inner := s.inner.tail, buffer := s.buffer ++ [val] }
      match val with
      | none => s'
      | some _ => fill_buffer_auxB fuel s'
    else s

/-- `BufferedIterator::fill_buffer`.  Each loop iteration grows the
buffer by one, so `max_capacity - buffer.len()` iterations suffice. -/
def fill_bufferB (s : BufferedIterator T) : BufferedIterator T :=
  fill_buffer_auxB (s.max_capacity - s.buffer.length) s

/-- `BufferedIterator::next` (buffered.rs lines 24-27): fill, then
`pop_front().unwrap()`.  Popping an empty buffer is the `unwrap` panic,
modelled as `none`. -/
def nextB (s : BufferedIterator T) : Option (Option T × BufferedIterator T) :=
  let s1 := fill_bufferB s
  match s1.buffer with
  | [] => none
  | v :: rest => some (v, { s1 with buffer := rest })

/-- Drain the buffered iterator. -/
def runB : Nat → BufferedIterator T → Option (List T)
  | 0, _ => none
  | fuel + 1, s =>
    match nextB s with
    | none => none
    | some (none, _) => some []
    | some (some v, s') => (runB fuel s').map (fun l => v :: l)

/-- Collecting `iter.buffered(capacity)`. -/
def collectBuffered (capacity : Nat) (src : List T) : Option (List T) :=
  runB (src.length + 1) (BufferedIterator.new src capacity)

/-- Invariant tying a reachable buffered-iterator state to the list of
values still to be yielded: the buffer holds the next `q` values
followed by `k` end-markers (end-markers only once the source is
gone), and the source holds the rest. -/
def BufInv (cap : Nat) (rest : List T) (s : BufferedIterator T) : Prop :=
  ∃ q k, q ≤ rest.length ∧
    s.buffer = (rest.take q).map some ++ List.replicate k none ∧
    s.inner = rest.drop q ∧
    (0 < k → q = rest.length) ∧
    s.buffer.length ≤ cap ∧
    s.max_capacity = cap

end BufferedDefs

section InterleaveDefs

variable {T : Type}

/-- State of `InterleaveIterator` (interleave.rs). -/
structure InterleaveIterator (T : Type) where
  left : List T
  right : List T
  next_left : Bool

/-- `interleave` (interleave.rs lines 29-39): start with the left. -/
def interleave (a b : List T) : InterleaveIterator T :=
  { left := a, right := b, next_left := true }

/-- `InterleaveIterator::next` (interleave.rs lines 15-24): take from
the side whose turn it is, then flip the turn.  The underlying
iterator is advanced even when it is exhausted (`tail [] = []`). -/
def nextIL (s : InterleaveIterator T) : Option T × InterleaveIterator T :=
  match s.next_left with
  | true => (s.left.head?, { left := s.left.tail, right := s.right, next_left := false })
  | false => (s.right.head?, { left := s.left, right := s.right.tail, next_left := true })

/-- Drain the interleave iterator. -/
def runIL : Nat → InterleaveIterator T → Option (List T)
  | 0, _ => none
  | fuel + 1, s =>
    match nextIL s with
    | (none, _) => some []
    | (some v, s') => (runIL fuel s').map (fun l => v :: l)

/-- Collecting `a.interleave(b)`. -/
def collectInterleave (a b : List T) : Option (List T) :=
  runIL (a.length + b.length + 1) (interleave a b)

/-- The alternating sequence drawn from two lists, starting with the
side given by the flag, stopping as soon as the side whose turn it is
is exhausted. -/
def interleaveSpec : Bool → List T → List T → List T
  | true, [], _ => []
  | true, x :: xs, ys => x :: interleaveSpec false xs ys
  | false, _, [] => []
  | false, xs, y :: ys => y :: interleaveSpec true xs ys
termination_by _b xs ys => xs.length + ys.length

/-- Closed form of the interleaving that starts with `a`: the zipped
pairs of the common prefix, flattened, followed by one extra element of
`a` exactly when `a` is strictly longer than `b`. -/
def pairJoin (a b : List T) : List T :=
  (List.zipWith (fun u v => [u, v]) a b).flatten ++ (a.drop b.length).take 1

end InterleaveDefs

section ThreadedLemmas

variable {FI FO : Type}

theorem padTakeOpt_length (m : Nat) (l : List FI) : (padTakeOpt m l).length = m := by
  simp [padTakeOpt]
  omega

theorem padTakeOpt_cons (m : Nat) (l : List FI) :
    padTakeOpt (m + 1) l = l.head? :: padTakeOpt m l.tail := by
  cases l with
  | nil => simp [padTakeOpt, List.replicate_succ]
  | cons x xs =>
    simp [padTakeOpt]

theorem padTakeOpt_snoc (m : Nat) (l : List FI) :
    padTakeOpt m l ++ [(l.drop m).head?] = padTakeOpt (m + 1) l := by
  rcases Nat.lt_or_ge m l.length with h | h
  · have hd : (l.drop m).head? = some l[m] := by
      rw [List.head?_drop]
      simp [List.getElem?_eq_getElem h]
    rw [hd]
    have h1 : m - l.length = 0 := by omega
    have h2 : m + 1 - l.length = 0 := by omega
    rw [padTakeOpt, padTakeOpt, h1, h2]
    simp only [List.replicate_zero, List.append_nil, List.map_take]
    rw [List.take_succ]
    have hm : (List.map some l)[m]? = some (some l[m]) := by
      rw [List.getElem?_map, List.getElem?_eq_getElem h]
      rfl
    rw [hm]
    rfl
  · have hd : (l.drop m).head? = none := by
      rw [List.head?_drop]
      exact List.getElem?_eq_none h
    rw [hd]
    have h1 : l.take m = l := List.take_of_length_le h
    have h2 : l.take (m + 1) = l := List.take_of_length_le (by omega)
    have h3 : m + 1 - l.length = (m - l.length) + 1 := by omega
    simp [padTakeOpt, h1, h2, h3, List.replicate_succ' (m - l.length)]

/-- Reduce `x % N` for `x < 2 * N`. -/
theorem mod_red (N x : Nat) (h : x < 2 * N) : x % N = if x < N then x else x - N := by
  split
  · exact Nat.mod_eq_of_lt (by assumption)
  · rw [Nat.mod_eq_sub_mod (by omega)]
    exact Nat.mod_eq_of_lt (by omega)

theorem mkWorkers_length (N i : Nat) (P : List (Option FI)) :
    (mkWorkers N i P).length = N := by
  simp [mkWorkers]

theorem mkWorkers_getElem (N i : Nat) (P : List (Option FI)) (j : Nat) (_hj : j < N)
    (hj2 : j < (mkWorkers N i P).length) :
    (mkWorkers N i P)[j] = [P.getD ((N + j - i) % N) none] := by
  simp [mkWorkers]

theorem mkWorkers_getD (N i : Nat) (P : List (Option FI)) (j : Nat) :
    (mkWorkers N i P).getD j [] =
      if j < N then [P.getD ((N + j - i) % N) none] else [] := by
  rcases Nat.lt_or_ge j N with h | h
  · rw [List.getD_eq_getElem _ _ (by simpa [mkWorkers_length])]
    simp [mkWorkers_getElem N i P j h (by simpa [mkWorkers_length]), h]
  · rw [List.getD_eq_default _ _ (by simpa [mkWorkers_length])]
    simp [Nat.not_lt_of_ge h]

theorem mkWorkers_getElem? (N i : Nat) (P : List (Option FI)) (j : Nat) :
    (mkWorkers N i P)[j]? =
      if j < N then some [P.getD ((N + j - i) % N) none] else none := by
  rcases Nat.lt_or_ge j N with h | h
  · rw [if_pos h, List.getElem?_eq_getElem (by simpa [mkWorkers_length]),
      mkWorkers_getElem N i P j h (by simpa [mkWorkers_length])]
  · rw [if_neg (by omega), List.getElem?_eq_none]
    simpa [mkWorkers_length]

theorem sendAll_length (vs : List (Option FI)) :
    ∀ (ws : List (List (Option FI))) (i : Nat), (sendAll ws i vs).length = ws.length := by
  induction vs with
  | nil => intro ws i; rfl
  | cons v vs ih =>
    intro ws i
    rw [sendAll, ih]
    simp

theorem sendAll_getElem? (vs : List (Option FI)) :
    ∀ (ws : List (List (Option FI))) (i : Nat), i + vs.length = ws.length →
      ∀ j, (sendAll ws i vs)[j]? =
        if i ≤ j ∧ j < ws.length then some (ws.getD j [] ++ [vs.getD (j - i) none])
        else ws[j]? := by
  induction vs with
  | nil =>
    intro ws i h j
    simp at h
    have : ¬ (i ≤ j ∧ j < ws.length) := by omega
    simp [sendAll, this]
  | cons v vs ih =>
    intro ws i h j
    have hi : i < ws.length := by simp at h; omega
    rw [sendAll]
    have hlen : (ws.set i (ws.getD i [] ++ [v])).length = ws.length := by simp
    rcases Nat.lt_or_ge (i + 1) ws.length with hlt | hge
    · rw [Nat.mod_eq_of_lt hlt]
      rw [ih _ (i + 1) (by simp at h ⊢; omega) j]
      rw [hlen]
      rcases eq_or_ne j i with rfl | hne
      · have h1 : ¬ (j + 1 ≤ j ∧ j < ws.length) := by omega
        have h2 : j ≤ j ∧ j < ws.length := ⟨le_refl j, hi⟩
        simp only [h1, if_false, h2, if_true]
        rw [List.getElem?_set_self' ]
        simp [List.getD_eq_getElem?_getD, List.getElem?_eq_getElem hi]
      · have hset : (ws.set i (ws.getD i [] ++ [v])).getD j [] = ws.getD j [] := by
          simp [List.getD_eq_getElem?_getD, List.getElem?_set_ne hne.symm]
        have hset? : (ws.set i (ws.getD i [] ++ [v]))[j]? = ws[j]? :=
          List.getElem?_set_ne hne.symm
        rw [hset?]
        rcases Nat.lt_or_ge j (i + 1) with hj | hj
        · have h1 : ¬ (i + 1 ≤ j ∧ j < ws.length) := by omega
          have h2 : ¬ (i ≤ j ∧ j < ws.length) := by omega
          simp [h1, h2]
        · rcases Nat.lt_or_ge j ws.length with hjl | hjl
          · have h1 : i + 1 ≤ j ∧ j < ws.length := ⟨hj, hjl⟩
            have h2 : i ≤ j ∧ j < ws.length := ⟨by omega, hjl⟩
            simp only [h1, and_self, if_true, h2, hset]
            have : (v :: vs).getD (j - i) none = vs.getD (j - (i + 1)) none := by
              have : j - i = (j - (i + 1)) + 1 := by omega
              rw [this]
              rfl
            rw [this]
          · have h1 : ¬ (i + 1 ≤ j ∧ j < ws.length) := by omega
            have h2 : ¬ (i ≤ j ∧ j < ws.length) := by omega
            simp [h1, h2]
    · have hveq : vs = [] := by
        have := h
        simp at this
        have : vs.length = 0 := by omega
        exact List.eq_nil_of_length_eq_zero this
      subst hveq
      rw [sendAll]
      rcases eq_or_ne j i with rfl | hne
      · have h2 : j ≤ j ∧ j < ws.length := ⟨le_refl j, hi⟩
        simp only [h2, and_self, if_true]
        rw [List.getElem?_set_self']
        simp [List.getD_eq_getElem?_getD, List.getElem?_eq_getElem hi]
      · have h2 : ¬ (i ≤ j ∧ j < ws.length) := by omega
        simp only [h2, if_false]
        exact List.getElem?_set_ne hne.symm

theorem fill_aux_spec :
    ∀ (m : Nat) (s : ThreadedIterator FI),
      s.num_processing + m = s.workers.length →
      s.input_index < s.workers.length →
      fill_buffer_aux m s =
        ⟨s.inner.drop m, sendAll s.workers s.input_index (padTakeOpt m s.inner),
         (s.input_index + m) % s.workers.length, s.workers.length⟩ := by
  intro m
  induction m with
  | zero =>
    intro s hm hi
    obtain ⟨inner, ws, i, p⟩ := s
    simp at hm hi
    simp [fill_buffer_aux, padTakeOpt, sendAll, Nat.mod_eq_of_lt hi, hm]
  | succ m ih =>
    intro s hm hi
    obtain ⟨inner, ws, i, p⟩ := s
    simp at hm hi
    have hcond : p < ws.length := by omega
    rw [fill_buffer_aux]
    simp only [hcond, if_true]
    have hN : 0 < ws.length := by omega
    have hset : (ws.set i (ws.getD i [] ++ [inner.head?])).length = ws.length := by simp
    rw [ih (sendStep ⟨inner, ws, i, p⟩)
        (by simp [sendStep, hset]; omega)
        (by simp [sendStep, hset]; exact Nat.mod_lt _ hN)]
    simp only [sendStep, hset]
    congr 1
    · rw [← List.drop_one, List.drop_drop]
      congr 1
      omega
    · rw [padTakeOpt_cons, sendAll]
    · rw [Nat.mod_add_mod]
      congr 1
      omega

theorem fill_buffer_spec (s : ThreadedIterator FI)
    (hp : s.num_processing ≤ s.workers.length)
    (hi : s.input_index < s.workers.length) :
    fill_buffer s =
      ⟨s.inner.drop (s.workers.length - s.num_processing),
       sendAll s.workers s.input_index
         (padTakeOpt (s.workers.length - s.num_processing) s.inner),
       (s.input_index + (s.workers.length - s.num_processing)) % s.workers.length,
       s.workers.length⟩ :=
  fill_aux_spec _ s (by omega) hi

theorem new_eq_mkState (N : Nat) (src : List FI) (hN : 1 ≤ N) :
    ThreadedIterator.new N src = mkState N 0 (padTakeOpt N src) (src.drop N) := by
  rw [ThreadedIterator.new, fill_buffer]
  simp only [List.length_replicate, Nat.sub_zero]
  rw [fill_aux_spec N _ (by simp) (by simpa)]
  simp only [mkState, Nat.zero_add, Nat.mod_self, List.length_replicate]
  congr 1
  apply List.ext_getElem?
  intro j
  rw [sendAll_getElem? _ _ _ (by simp [padTakeOpt_length]), mkWorkers_getElem?]
  simp only [List.length_replicate, Nat.zero_le, true_and, Nat.sub_zero]
  rcases Nat.lt_or_ge j N with hj | hj
  · rw [if_pos hj, if_pos hj]
    have h1 : (List.replicate N ([] : List (Option FI))).getD j [] = [] := by
      simp [List.getD_eq_getElem?_getD, List.getElem?_replicate, hj]
    have h2 : (N + j) % N = j := by
      rw [Nat.add_mod_left, Nat.mod_eq_of_lt hj]
    rw [h1, h2]
    simp
  · rw [if_neg (by omega), if_neg (by omega)]
    exact List.getElem?_eq_none (by simpa)

theorem padTakeOpt_zero (l : List FI) : padTakeOpt 0 l = [] := by
  simp [padTakeOpt]

theorem padTakeOpt_one (l : List FI) : padTakeOpt 1 l = [l.head?] := by
  rw [show (1 : Nat) = 0 + 1 from rfl, padTakeOpt_cons, padTakeOpt_zero]

theorem getD_append_length (l : List (Option FI)) (x : Option FI) :
    (l ++ [x]).getD l.length none = x := by
  simp [List.getD_eq_getElem?_getD, List.getElem?_append_right (le_refl l.length)]

theorem getD_append_lt (l : List (Option FI)) (x : Option FI) (k : Nat)
    (h : k < l.length) :
    (l ++ [x]).getD k none = l.getD k none := by
  simp [List.getD_eq_getElem?_getD, List.getElem?_append_left h]

theorem getD_tail (P : List (Option FI)) (k : Nat) :
    P.tail.getD k none = P.getD (k + 1) none := by
  simp [List.getD_eq_getElem?_getD, List.getElem?_tail]

/-- One retrieval rotates the canonical pool: popping the due worker at
`i` and refilling it with the next stream item advances the window by
one position. -/
theorem workers_set_eq (N i : Nat) (P : List (Option FI)) (x : Option FI)
    (hN : 1 ≤ N) (hi : i < N) (hP : P.length = N) :
    (mkWorkers N i P).set i [x] = mkWorkers N ((i + 1) % N) (P.tail ++ [x]) := by
  apply List.ext_getElem?
  intro j
  rcases Nat.lt_or_ge j N with hj | hj
  case inr =>
    rw [List.getElem?_eq_none (by simp [mkWorkers_length]; omega),
      List.getElem?_eq_none (by simp [mkWorkers_length]; omega)]
  case inl =>
    rw [mkWorkers_getElem? N _ _ j, if_pos hj]
    have hi' : (i + 1) % N = if i + 1 < N then i + 1 else 0 := by
      rcases Nat.lt_or_ge (i + 1) N with h | h
      · rw [Nat.mod_eq_of_lt h, if_pos h]
      · rw [if_neg (by omega), show i + 1 = N by omega, Nat.mod_self]
    rcases eq_or_ne j i with rfl | hne
    · rw [List.getElem?_set_self (by simp [mkWorkers_length]; omega)]
      have hd' : (N + j - (j + 1) % N) % N = N - 1 := by
        rw [hi']
        split
        · rw [show N + j - (j + 1) = N - 1 by omega, Nat.mod_eq_of_lt (by omega)]
        · rw [Nat.sub_zero, Nat.add_mod_left, Nat.mod_eq_of_lt hj]
          omega
      rw [hd']
      have hlast : (P.tail ++ [x]).getD (N - 1) none = x := by
        have hlen : P.tail.length = N - 1 := by simp [hP]
        rw [← hlen, getD_append_length]
      rw [hlast]
    · rw [List.getElem?_set_ne (fun h => hne h.symm)]
      rw [mkWorkers_getElem? N i P j, if_pos hj]
      have hd : (N + j - i) % N = if j < i then N + j - i else j - i := by
        rcases Nat.lt_or_ge j i with h | h
        · rw [if_pos h, Nat.mod_eq_of_lt (by omega)]
        · rw [if_neg (by omega), show N + j - i = N + (j - i) by omega,
            Nat.add_mod_left, Nat.mod_eq_of_lt (by omega)]
      have hdpos : 0 < (N + j - i) % N ∧ (N + j - i) % N < N := by
        rw [hd]; split <;> omega
      have hd' : (N + j - (i + 1) % N) % N = (N + j - i) % N - 1 := by
        rw [hi', hd]
        split
        · rcases Nat.lt_or_ge j i with h | h
          · rw [if_pos h, show N + j - (i + 1) = N + j - i - 1 by omega,
              Nat.mod_eq_of_lt (by omega)]
          · rw [if_neg (by omega), show N + j - (i + 1) = N + (j - i - 1) by omega,
              Nat.add_mod_left, Nat.mod_eq_of_lt (by omega)]
        · rw [Nat.sub_zero, Nat.add_mod_left, Nat.mod_eq_of_lt hj]
          split <;> omega
      rw [hd']
      obtain ⟨h1, h2⟩ := hdpos
      rw [getD_append_lt _ _ _ (by simp [hP]; omega), getD_tail]
      congr 3
      omega

theorem output_index_mkState (N i : Nat) (P : List (Option FI)) (inner : List FI)
    (hi : i < N) :
    output_index (mkState N i P inner) = i := by
  simp only [output_index, mkState, mkWorkers_length]
  rw [show 2 * N + i - N = N + i by omega, Nat.add_mod_left, Nat.mod_eq_of_lt hi]

/-- The rotation step: from a canonical saturated state, `next`
retrieves the transformed oldest pending item and the state advances to
the canonical state with the window shifted by one. -/
theorem nextTI_mkState (f : FI → FO) (N i : Nat) (P : List (Option FI))
    (inner : List FI) (hN : 1 ≤ N) (hi : i < N) (hP : P.length = N) :
    nextTI f (mkState N i P inner) =
      some (workerStep f (P.getD 0 none),
        mkState N ((i + 1) % N) (P.tail ++ [inner.head?]) inner.tail) := by
  have hout : output_index (mkState N i P inner) = i :=
    output_index_mkState N i P inner hi
  have hqueue : (mkState N i P inner).workers.getD
      (output_index (mkState N i P inner)) [] = [P.getD 0 none] := by
    rw [hout]
    show (mkWorkers N i P).getD i [] = _
    rw [mkWorkers_getD, if_pos hi, show N + i - i = N by omega, Nat.mod_self]
  unfold nextTI
  rw [hqueue, hout]
  dsimp only
  show some (workerStep f (P.getD 0 none), fill_buffer _) = _
  apply congrArg
  apply congrArg (Prod.mk (workerStep f (P.getD 0 none)))
  rw [fill_buffer]
  dsimp only [mkState]
  have hlen1 : ((mkWorkers N i P).set i []).length = N := by
    simp [mkWorkers_length]
  rw [fill_aux_spec _ _ (by dsimp only; rw [hlen1]; omega)
    (by dsimp only; rw [hlen1]; exact hi)]
  dsimp only
  rw [hlen1]
  rw [show N - (N - 1) = 1 by omega, padTakeOpt_one]
  rw [sendAll, sendAll]
  have hgetD : ((mkWorkers N i P).set i []).getD i [] = [] := by
    simp [List.getD_eq_getElem?_getD,
      List.getElem?_set_self (by simp [mkWorkers_length]; omega : i < (mkWorkers N i P).length)]
  rw [hgetD, List.nil_append, List.set_set,
    workers_set_eq N i P (inner.head?) hN hi hP, List.drop_one]

theorem padTakeOpt_tail_snoc (N : Nat) (hN : 1 ≤ N) (l : List FI) :
    (padTakeOpt N l).tail ++ [(l.drop N).head?] = padTakeOpt N l.tail := by
  obtain ⟨m, rfl⟩ : ∃ m, N = m + 1 := ⟨N - 1, by omega⟩
  rw [padTakeOpt_cons, List.tail_cons,
    show l.drop (m + 1) = l.tail.drop m by
      rw [← List.drop_one, List.drop_drop, Nat.add_comm],
    padTakeOpt_snoc]

/-- Full characterization of reachable states: after `t` pulls the
iterator is in the canonical saturated state whose pending window is
the `N` stream items starting at position `t`. -/
theorem iterTI_new (f : FI → FO) (N : Nat) (src : List FI) (hN : 1 ≤ N) :
    ∀ t, iterTI f (ThreadedIterator.new N src) t =
      mkState N (t % N) (padTakeOpt N (src.drop t)) (src.drop (t + N)) := by
  intro t
  induction t with
  | zero => simpa [iterTI] using new_eq_mkState N src hN
  | succ t ih =>
    rw [iterTI, ih]
    unfold stepTI
    rw [nextTI_mkState f N (t % N) _ _ hN (Nat.mod_lt t (by omega))
      (padTakeOpt_length N _)]
    dsimp only
    have hpend : (padTakeOpt N (src.drop t)).tail ++ [(src.drop (t + N)).head?] =
        padTakeOpt N (src.drop (t + 1)) := by
      rw [show src.drop (t + N) = (src.drop t).drop N from (List.drop_drop N t src).symm,
        padTakeOpt_tail_snoc N hN (src.drop t), List.tail_drop]
    have hinn : (src.drop (t + N)).tail = src.drop (t + 1 + N) := by
      rw [List.tail_drop]
      congr 1
      omega
    rw [hpend, hinn, Nat.mod_add_mod]

theorem runTI_mkState (f : FI → FO) (N : Nat) (hN : 1 ≤ N) :
    ∀ (rest : List FI) (i : Nat), i < N →
      runTI f (rest.length + 1) (mkState N i (padTakeOpt N rest) (rest.drop N)) =
        some (rest.map f) := by
  intro rest
  induction rest with
  | nil =>
    intro i hi
    have hval : (padTakeOpt N ([] : List FI)).getD 0 none = none := by
      simp only [padTakeOpt, List.getD_eq_getElem?_getD, List.getElem?_replicate,
        List.take_nil, List.map_nil, List.nil_append, List.length_nil, Nat.sub_zero]
      split <;> rfl
    rw [show ([] : List FI).length + 1 = 1 from rfl, runTI,
      nextTI_mkState f N i _ _ hN hi (padTakeOpt_length _ _), hval]
    simp [workerStep]
  | cons x rest' ih =>
    intro i hi
    have hval : (padTakeOpt N (x :: rest')).getD 0 none = some x := by
      obtain ⟨m, rfl⟩ : ∃ m, N = m + 1 := ⟨N - 1, by omega⟩
      rw [padTakeOpt_cons]
      rfl
    have hstate : (padTakeOpt N (x :: rest')).tail ++ [((x :: rest').drop N).head?] =
        padTakeOpt N rest' := by
      simpa using padTakeOpt_tail_snoc N hN (x :: rest')
    have hinner : ((x :: rest').drop N).tail = rest'.drop N := by
      rw [List.tail_drop, List.drop_succ_cons]
    rw [List.length_cons, runTI,
      nextTI_mkState f N i _ _ hN hi (padTakeOpt_length _ _), hval]
    dsimp only [workerStep, Option.map_some']
    rw [hstate, hinner, ih ((i + 1) % N) (Nat.mod_lt _ (by omega))]
    rfl

end ThreadedLemmas

/-- C1: For every finite source sequence, every transformation
function, and every pool size `N ≥ 1`, collecting the ordered
parallel-map iterator (workers modelled as in-order one-item pipelines)
yields exactly the sequence obtained by applying the transformation
sequentially to the source, element-for-element and in order. -/
theorem c1_par_map_ordered_eq_seq_map {FI FO : Type} (f : FI → FO) (N : Nat)
    (src : List FI) (hN : 1 ≤ N) :
    collectTI f N src = some (src.map f) := by
  rw [collectTI, new_eq_mkState N src hN]
  exact runTI_mkState f N hN src 0 hN

/-- Witness for C1 at the spec's concrete test: squaring `[0..9]` with
pool size 4. -/
theorem c1_par_map_ordered_eq_seq_map_witness :
    1 ≤ 4 ∧ collectTI (fun x : Nat => x * x) 4 [0, 1, 2, 3, 4, 5, 6, 7, 8, 9] =
      some ([0, 1, 2, 3, 4, 5, 6, 7, 8, 9].map (fun x : Nat => x * x)) :=
  ⟨by decide, c1_par_map_ordered_eq_seq_map (fun x : Nat => x * x) 4 _ (by decide)⟩

section MoreThreadedLemmas

variable {FI FO : Type}

theorem padTakeOpt_getD_zero (N : Nat) (hN : 1 ≤ N) (l : List FI) :
    (padTakeOpt N l).getD 0 none = l.head? := by
  obtain ⟨m, rfl⟩ : ∃ m, N = m + 1 := ⟨N - 1, by omega⟩
  rw [padTakeOpt_cons]
  rfl

theorem padTakeOpt_nil (N : Nat) :
    padTakeOpt N ([] : List FI) = List.replicate N none := by
  simp [padTakeOpt]

theorem replicate_none_getD (N k : Nat) :
    (List.replicate N (none : Option FI)).getD k none = none := by
  simp only [List.getD_eq_getElem?_getD, List.getElem?_replicate]
  split <;> rfl

theorem mkState_due_queue (N i : Nat) (P : List (Option FI)) (inner : List FI)
    (hi : i < N) :
    (mkState N i P inner).workers.getD (output_index (mkState N i P inner)) [] =
      [P.getD 0 none] := by
  rw [output_index_mkState N i P inner hi]
  show (mkWorkers N i P).getD i [] = _
  rw [mkWorkers_getD, if_pos hi, show N + i - i = N by omega, Nat.mod_self]

end MoreThreadedLemmas

/-- C2: After construction and after every completed `next`, the state
satisfies `in_flight ≤ N`; the index computed by `output_index` as
`(2N + dispatch_index − in_flight) mod N` equals the integer value
`(dispatch_index − in_flight) mod N`; and the worker at that position
holds, as its oldest entry, the oldest undelivered work item — stream
element number `t` after `t` completed pulls (its value when the source
still has one, an end-marker otherwise). -/
theorem c2_output_index_invariant {FI FO : Type} (f : FI → FO) (N : Nat)
    (src : List FI) (hN : 1 ≤ N) (t : Nat) :
    (iterTI f (ThreadedIterator.new N src) t).num_processing ≤ N ∧
    (iterTI f (ThreadedIterator.new N src) t).workers.length = N ∧
    ((output_index (iterTI f (ThreadedIterator.new N src) t) : ℤ) =
      (((iterTI f (ThreadedIterator.new N src) t).input_index : ℤ) -
        ((iterTI f (ThreadedIterator.new N src) t).num_processing : ℤ)) % (N : ℤ)) ∧
    ((iterTI f (ThreadedIterator.new N src) t).workers.getD
        (output_index (iterTI f (ThreadedIterator.new N src) t)) []).head? =
      some (src.drop t).head? := by
  rw [iterTI_new f N src hN t]
  have hmod : t % N < N := Nat.mod_lt t (by omega)
  refine ⟨?_, ?_, ?_, ?_⟩
  · show N ≤ N
    exact le_refl N
  · show (mkWorkers N (t % N) _).length = N
    exact mkWorkers_length _ _ _
  · rw [output_index_mkState N (t % N) _ _ hmod]
    show ((t % N : Nat) : ℤ) = (((t % N : Nat) : ℤ) - (N : ℤ)) % (N : ℤ)
    have h1 : (((t % N : Nat) : ℤ) - (N : ℤ)) % (N : ℤ) = ((t % N : Nat) : ℤ) % (N : ℤ) := by
      conv_lhs => rw [Int.sub_eq_add_neg, show (-(N : ℤ)) = (-1) * (N : ℤ) by ring]
      exact Int.add_mul_emod_self
    rw [h1, Int.emod_eq_of_lt (Int.ofNat_nonneg _) (by exact_mod_cast hmod)]
  · rw [mkState_due_queue N (t % N) _ _ hmod,
      padTakeOpt_getD_zero N hN (src.drop t)]
    rfl

/-- Witness for C2 with pool size 2, source `[5,6,7]`, after one pull. -/
theorem c2_output_index_invariant_witness :
    1 ≤ 2 ∧
    ((iterTI (fun x : Nat => x + 1) (ThreadedIterator.new 2 [5, 6, 7]) 1).num_processing ≤ 2 ∧
    (iterTI (fun x : Nat => x + 1) (ThreadedIterator.new 2 [5, 6, 7]) 1).workers.length = 2 ∧
    ((output_index (iterTI (fun x : Nat => x + 1) (ThreadedIterator.new 2 [5, 6, 7]) 1) : ℤ) =
      (((iterTI (fun x : Nat => x + 1) (ThreadedIterator.new 2 [5, 6, 7]) 1).input_index : ℤ) -
        ((iterTI (fun x : Nat => x + 1) (ThreadedIterator.new 2 [5, 6, 7]) 1).num_processing : ℤ)) %
          (2 : ℤ)) ∧
    ((iterTI (fun x : Nat => x + 1) (ThreadedIterator.new 2 [5, 6, 7]) 1).workers.getD
        (output_index (iterTI (fun x : Nat => x + 1) (ThreadedIterator.new 2 [5, 6, 7]) 1)) []).head? =
      some ([5, 6, 7].drop 1).head?) :=
  ⟨by decide, c2_output_index_invariant (fun x : Nat => x + 1) 2 [5, 6, 7] (by decide) 1⟩

/-- C7: Over an empty source the very first `next` yields the
end-of-sequence signal, and at every reachable state every item ever
sitting in any worker's queue is an end-marker: no worker is ever
dispatched a real value (each dispatched item is placed in the target
worker's queue in the post-state of the operation that sent it). -/
theorem c7_empty_source_only_end_markers {FI FO : Type} (f : FI → FO) (N : Nat)
    (hN : 1 ≤ N) :
    (nextTI f (ThreadedIterator.new N ([] : List FI))).map Prod.fst = some none ∧
    ∀ t w item,
      item ∈ (iterTI f (ThreadedIterator.new N ([] : List FI)) t).workers.getD w [] →
      item = none := by
  constructor
  · rw [new_eq_mkState N ([] : List FI) hN,
      nextTI_mkState f N 0 _ _ hN (by omega) (padTakeOpt_length _ _)]
    rw [show (padTakeOpt N ([] : List FI)).getD 0 none = none by
      rw [padTakeOpt_getD_zero N hN]; rfl]
    rfl
  · intro t w item hmem
    rw [iterTI_new f N ([] : List FI) hN t] at hmem
    rw [List.drop_nil, padTakeOpt_nil] at hmem
    change item ∈ (mkWorkers N (t % N) (List.replicate N none)).getD w [] at hmem
    rw [mkWorkers_getD] at hmem
    rcases Nat.lt_or_ge w N with hw | hw
    · rw [if_pos hw, replicate_none_getD] at hmem
      simpa using hmem
    · rw [if_neg (by omega)] at hmem
      simp at hmem

section SafetyLemmas

variable {FI FO : Type}

theorem getD_set_self_of_lt {α : Type} (ws : List α) (i : Nat) (x d : α)
    (h : i < ws.length) : (ws.set i x).getD i d = x := by
  simp [List.getD_eq_getElem?_getD, List.getElem?_set_self h]

theorem getD_set_ne {α : Type} (ws : List α) (i j : Nat) (x d : α) (h : i ≠ j) :
    (ws.set i x).getD j d = ws.getD j d := by
  simp [List.getD_eq_getElem?_getD, List.getElem?_set_ne h]

theorem add_mod_ne (N i d : Nat) (hi : i < N) (hd1 : 0 < d) (hd2 : d < N) :
    (i + d) % N ≠ i := by
  rcases Nat.lt_or_ge (i + d) N with h | h
  · rw [Nat.mod_eq_of_lt h]
    omega
  · rw [Nat.mod_eq_sub_mod h, Nat.mod_eq_of_lt (by omega)]
    omega

/-- If every worker the fill loop is still going to target has an
empty queue, every send of the loop finds its target empty. -/
theorem fill_sends_ok_of_targets_empty :
    ∀ (m : Nat) (s : ThreadedIterator FI),
      s.num_processing + m = s.workers.length →
      s.input_index < s.workers.length →
      (∀ k, k < m →
        s.workers.getD ((s.input_index + k) % s.workers.length) [] = []) →
      fill_sends_ok m s = true := by
  intro m
  induction m with
  | zero => intro s _ _ _; rfl
  | succ m ih =>
    intro s hm hi htargets
    obtain ⟨inner, ws, i, p⟩ := s
    simp only at hm hi htargets
    have hcond : p < ws.length := by omega
    rw [fill_sends_ok]
    simp only [hcond, if_true]
    have h0 : ws.getD i [] = [] := by
      have := htargets 0 (by omega)
      rwa [Nat.add_zero, Nat.mod_eq_of_lt hi] at this
    rw [h0]
    have hset : (ws.set i (ws.getD i [] ++ [inner.head?])).length = ws.length := by simp
    rw [show (([] : List (Option FI)).isEmpty && fill_sends_ok m
        (sendStep ⟨inner, ws, i, p⟩)) = fill_sends_ok m (sendStep ⟨inner, ws, i, p⟩)
      from rfl]
    apply ih
    · simp [sendStep]
      omega
    · simp only [sendStep, hset]
      exact Nat.mod_lt _ (by omega)
    · intro k hk
      simp only [sendStep, hset]
      have harith : ((i + 1) % ws.length + k) % ws.length = (i + (k + 1)) % ws.length := by
        rw [Nat.mod_add_mod]
        congr 1
        omega
      rw [harith]
      have hne : i ≠ (i + (k + 1)) % ws.length :=
        fun h => add_mod_ne ws.length i (k + 1) hi (by omega) (by omega) h.symm
      rw [getD_set_ne _ _ _ _ _ hne]
      exact htargets (k + 1) (by omega)

theorem nextSendsOk_mkState (N i : Nat) (P : List (Option FI)) (I : List FI)
    (hN : 1 ≤ N) (hi : i < N) (hP : P.length = N) :
    nextSendsOk (mkState N i P I) = true := by
  unfold nextSendsOk
  rw [mkState_due_queue N i P I hi, output_index_mkState N i P I hi]
  dsimp only [mkState]
  apply fill_sends_ok_of_targets_empty
  · simp only [List.length_set, mkWorkers_length]
    omega
  · simp only [List.length_set, mkWorkers_length]
    exact hi
  · intro k hk
    simp only [List.length_set, mkWorkers_length] at hk ⊢
    have hk0 : k = 0 := by omega
    subst hk0
    rw [Nat.add_zero, Nat.mod_eq_of_lt hi]
    exact getD_set_self_of_lt _ _ _ _ (by simpa [mkWorkers_length])

end SafetyLemmas

/-- C4: A dispatch never finds the target worker's capacity-1 mailbox
occupied, hence never blocks: every send of the construction fill and
of the fill inside every completed `next` targets a worker whose queue
of dispatched-but-unretrieved items is empty (its mailbox in
particular holds nothing), and in every reachable state every worker
holds at most one unit of work. -/
theorem c4_dispatch_never_finds_mailbox_full {FI FO : Type} (f : FI → FO)
    (N : Nat) (src : List FI) (hN : 1 ≤ N) :
    constructSendsOk N src = true ∧
    (∀ t, nextSendsOk (iterTI f (ThreadedIterator.new N src) t) = true) ∧
    (∀ t w,
      ((iterTI f (ThreadedIterator.new N src) t).workers.getD w []).length ≤ 1) := by
  refine ⟨?_, ?_, ?_⟩
  · apply fill_sends_ok_of_targets_empty
    · simp
    · simpa using hN
    · intro k hk
      simp only [List.length_replicate]
      simp [List.getD_eq_getElem?_getD, List.getElem?_replicate]
      split <;> rfl
  · intro t
    rw [iterTI_new f N src hN t]
    exact nextSendsOk_mkState N (t % N) _ _ hN (Nat.mod_lt t (by omega))
      (padTakeOpt_length _ _)
  · intro t w
    rw [iterTI_new f N src hN t]
    change ((mkWorkers N (t % N) _).getD w []).length ≤ 1
    rw [mkWorkers_getD]
    split
    · simp
    · simp

/-- Witness for C4 with pool size 2 over source `[3,4,5]`. -/
theorem c4_dispatch_never_finds_mailbox_full_witness :
    1 ≤ 2 ∧
    (constructSendsOk 2 [3, 4, 5] = true ∧
    (∀ t, nextSendsOk (iterTI (fun x : Nat => x * x)
      (ThreadedIterator.new 2 [3, 4, 5]) t) = true) ∧
    (∀ t w, ((iterTI (fun x : Nat => x * x)
      (ThreadedIterator.new 2 [3, 4, 5]) t).workers.getD w []).length ≤ 1)) :=
  ⟨by decide, c4_dispatch_never_finds_mailbox_full (fun x : Nat => x * x) 2 [3, 4, 5]
    (by decide)⟩

/-- Witness for C7 with pool size 3. -/
theorem c7_empty_source_only_end_markers_witness :
    1 ≤ 3 ∧
    ((nextTI (fun x : Nat => x + 1) (ThreadedIterator.new 3 ([] : List Nat))).map
        Prod.fst = some none ∧
    ∀ t w item,
      item ∈ (iterTI (fun x : Nat => x + 1)
          (ThreadedIterator.new 3 ([] : List Nat)) t).workers.getD w [] →
      item = none) :=
  ⟨by decide, c7_empty_source_only_end_markers (fun x : Nat => x + 1) 3 (by decide)⟩

section StatefulFillLemmas

variable {S FI FO : Type}

theorem fill_aux_specS :
    ∀ (m : Nat) (s : ThreadedStatefulIterator S FI),
      s.num_processing + m = s.workers.length →
      s.input_index < s.workers.length →
      fill_buffer_auxS m s =
        ⟨s.inner.drop m, sendAllS s.workers s.input_index (padTakeOpt m s.inner),
         (s.input_index + m) % s.workers.length, s.workers.length⟩ := by
  intro m
  induction m with
  | zero =>
    intro s hm hi
    obtain ⟨inner, ws, i, p⟩ := s
    simp at hm hi
    simp [fill_buffer_auxS, padTakeOpt, sendAllS, Nat.mod_eq_of_lt hi, hm]
  | succ m ih =>
    intro s hm hi
    obtain ⟨inner, ws, i, p⟩ := s
    simp at hm hi
    have hcond : p < ws.length := by omega
    rw [fill_buffer_auxS]
    simp only [hcond, if_true]
    obtain ⟨w, hw⟩ : ∃ w, ws[i]? = some w := ⟨_, List.getElem?_eq_getElem hi⟩
    have hstep : sendStepS (⟨inner, ws, i, p⟩ : ThreadedStatefulIterator S FI) =
        ⟨inner.tail,
         ws.set i ⟨w.state, w.queue ++ [inner.head?]⟩,
         (i + 1) % ws.length, p + 1⟩ := by
      simp only [sendStepS, hw]
    rw [hstep]
    have hset : (ws.set i ⟨w.state,
        w.queue ++ [inner.head?]⟩).length = ws.length := by simp
    rw [ih _ (by simp only [hset]; omega) (by simp only [hset]; exact Nat.mod_lt _ (by omega))]
    simp only [hset]
    congr 1
    · rw [← List.drop_one, List.drop_drop]
      congr 1
      omega
    · rw [padTakeOpt_cons, sendAllS, hw]
    · rw [Nat.mod_add_mod]
      congr 1
      omega

theorem fill_bufferS_spec (s : ThreadedStatefulIterator S FI)
    (hp : s.num_processing ≤ s.workers.length)
    (hi : s.input_index < s.workers.length) :
    fill_bufferS s =
      ⟨s.inner.drop (s.workers.length - s.num_processing),
       sendAllS s.workers s.input_index
         (padTakeOpt (s.workers.length - s.num_processing) s.inner),
       (s.input_index + (s.workers.length - s.num_processing)) % s.workers.length,
       s.workers.length⟩ :=
  fill_aux_specS _ s (by omega) hi

end StatefulFillLemmas

/-- C3: In both variants, a call to fill with `in_flight ≤ N` pulls the
next `N − in_flight` items of the virtual stream (source values, then
end-markers once the source is exhausted), dispatches them round-robin
starting at `dispatch_index` (advancing it cyclically and incrementing
`in_flight` each time), and returns with the pool saturated
(`in_flight = N`); when the source is already exhausted every
dispatched item is an end-marker. -/
theorem c3_fill_dispatches_round_robin_until_saturated {S FI : Type}
    (s : ThreadedIterator FI) (s2 : ThreadedStatefulIterator S FI)
    (hp : s.num_processing ≤ s.workers.length)
    (hi : s.input_index < s.workers.length)
    (hp2 : s2.num_processing ≤ s2.workers.length)
    (hi2 : s2.input_index < s2.workers.length) :
    ((fill_buffer s).num_processing = s.workers.length ∧
     fill_buffer s =
       ⟨s.inner.drop (s.workers.length - s.num_processing),
        sendAll s.workers s.input_index
          (padTakeOpt (s.workers.length - s.num_processing) s.inner),
        (s.input_index + (s.workers.length - s.num_processing)) % s.workers.length,
        s.workers.length⟩ ∧
     (s.inner = [] →
       padTakeOpt (s.workers.length - s.num_processing) s.inner =
         List.replicate (s.workers.length - s.num_processing) (none : Option FI))) ∧
    ((fill_bufferS s2).num_processing = s2.workers.length ∧
     fill_bufferS s2 =
       ⟨s2.inner.drop (s2.workers.length - s2.num_processing),
        sendAllS s2.workers s2.input_index
          (padTakeOpt (s2.workers.length - s2.num_processing) s2.inner),
        (s2.input_index + (s2.workers.length - s2.num_processing)) % s2.workers.length,
        s2.workers.length⟩ ∧
     (s2.inner = [] →
       padTakeOpt (s2.workers.length - s2.num_processing) s2.inner =
         List.replicate (s2.workers.length - s2.num_processing) (none : Option FI))) := by
  refine ⟨⟨?_, fill_buffer_spec s hp hi, ?_⟩, ⟨?_, fill_bufferS_spec s2 hp2 hi2, ?_⟩⟩
  · rw [fill_buffer_spec s hp hi]
  · intro h
    rw [h, padTakeOpt_nil]
  · rw [fill_bufferS_spec s2 hp2 hi2]
  · intro h
    rw [h, padTakeOpt_nil]

/-- Witness for C3: a fresh stateless pool of 2 over `[7,8,9]` and a
fresh stateful pool of 2 (state `0`) over `[7]`. -/
theorem c3_fill_dispatches_round_robin_until_saturated_witness :
    ((⟨[7, 8, 9], [[], []], 0, 0⟩ : ThreadedIterator Nat).num_processing ≤
        (⟨[7, 8, 9], [[], []], 0, 0⟩ : ThreadedIterator Nat).workers.length ∧
      (⟨[7, 8, 9], [[], []], 0, 0⟩ : ThreadedIterator Nat).input_index <
        (⟨[7, 8, 9], [[], []], 0, 0⟩ : ThreadedIterator Nat).workers.length) ∧
    (((fill_buffer (⟨[7, 8, 9], [[], []], 0, 0⟩ : ThreadedIterator Nat)).num_processing =
        (⟨[7, 8, 9], [[], []], 0, 0⟩ : ThreadedIterator Nat).workers.length ∧
      fill_buffer (⟨[7, 8, 9], [[], []], 0, 0⟩ : ThreadedIterator Nat) =
        ⟨([7, 8, 9] : List Nat).drop (2 - 0),
         sendAll [[], []] 0 (padTakeOpt (2 - 0) [7, 8, 9]),
         (0 + (2 - 0)) % 2, 2⟩ ∧
      (([7, 8, 9] : List Nat) = [] →
        padTakeOpt (2 - 0) ([7, 8, 9] : List Nat) =
          List.replicate (2 - 0) (none : Option Nat))) ∧
     ((fill_bufferS (⟨[7], [⟨0, []⟩, ⟨0, []⟩], 0, 0⟩ :
          ThreadedStatefulIterator Nat Nat)).num_processing =
        (⟨[7], [⟨0, []⟩, ⟨0, []⟩], 0, 0⟩ :
          ThreadedStatefulIterator Nat Nat).workers.length ∧
      fill_bufferS (⟨[7], [⟨0, []⟩, ⟨0, []⟩], 0, 0⟩ :
          ThreadedStatefulIterator Nat Nat) =
        ⟨([7] : List Nat).drop (2 - 0),
         sendAllS [⟨0, []⟩, ⟨0, []⟩] 0 (padTakeOpt (2 - 0) [7]),
         (0 + (2 - 0)) % 2, 2⟩ ∧
      (([7] : List Nat) = [] →
        padTakeOpt (2 - 0) ([7] : List Nat) =
          List.replicate (2 - 0) (none : Option Nat)))) := by
  constructor
  · exact ⟨by decide, by decide⟩
  · exact c3_fill_dispatches_round_robin_until_saturated
      (⟨[7, 8, 9], [[], []], 0, 0⟩ : ThreadedIterator Nat)
      (⟨[7], [⟨0, []⟩, ⟨0, []⟩], 0, 0⟩ : ThreadedStatefulIterator Nat Nat)
      (by decide) (by decide) (by decide) (by decide)

/-- C6: In both variants a worker that receives an end-marker produces
an end-marker result without invoking the transformation (the result
is independent of the transformation, and in the stateful variant the
state is untouched); the transformation is applied exactly to the real
values. -/
theorem c6_end_marker_forwarded_without_transformation {S FI FO : Type} :
    (∀ f : FI → FO, workerStep f none = none) ∧
    (∀ f g : FI → FO, workerStep f (none : Option FI) = workerStep g none) ∧
    (∀ (f : S → FI → FO × S) (st : S), statefulWorkerStep f st none = (none, st)) ∧
    (∀ (f g : S → FI → FO × S) (st : S),
      statefulWorkerStep f st (none : Option FI) = statefulWorkerStep g st none) ∧
    (∀ (f : FI → FO) (x : FI), workerStep f (some x) = some (f x)) ∧
    (∀ (f : S → FI → FO × S) (st : S) (x : FI),
      statefulWorkerStep f st (some x) = (some (f st x).1, (f st x).2)) :=
  ⟨fun _ => rfl, fun _ _ => rfl, fun _ _ => rfl, fun _ _ _ => rfl,
   fun _ _ => rfl, fun _ _ _ => rfl⟩

section PoolSizeLemmas

variable {S FI : Type}

theorem fill_buffer_aux_workers_length :
    ∀ (m : Nat) (s : ThreadedIterator FI),
      (fill_buffer_aux m s).workers.length = s.workers.length := by
  intro m
  induction m with
  | zero => intro s; rfl
  | succ m ih =>
    intro s
    rw [fill_buffer_aux]
    split
    · rw [ih]
      simp [sendStep]
    · rfl

theorem new_workers_length (N : Nat) (src : List FI) :
    (ThreadedIterator.new N src).workers.length = N := by
  rw [ThreadedIterator.new, fill_buffer, fill_buffer_aux_workers_length]
  simp

theorem fill_buffer_auxS_workers_length :
    ∀ (m : Nat) (s : ThreadedStatefulIterator S FI),
      (fill_buffer_auxS m s).workers.length = s.workers.length := by
  intro m
  induction m with
  | zero => intro s; rfl
  | succ m ih =>
    intro s
    rw [fill_buffer_auxS]
    split
    · rw [ih]
      show (sendStepS s).workers.length = s.workers.length
      cases h : s.workers[s.input_index]? <;> simp [sendStepS, h]
    · rfl

theorem newS_workers_length (N : Nat) (st : S) (src : List FI) :
    (ThreadedStatefulIterator.new N st src).workers.length = N := by
  rw [ThreadedStatefulIterator.new, fill_bufferS, fill_buffer_auxS_workers_length]
  simp

end PoolSizeLemmas

/-- C8: Construction of either variant fails fatally (the
`unwrap` panic, modelled as `none`) exactly when the platform cannot
report its available parallelism; when it reports `n`, construction
succeeds and creates exactly `n` workers. -/
theorem c8_construction_queries_parallelism {S FI : Type} (src : List FI) (st : S) :
    newTIWithParallelism (none : Option Nat) src = none ∧
    newTSWithParallelism (none : Option Nat) st src =
      (none : Option (ThreadedStatefulIterator S FI)) ∧
    (∀ n : Nat,
      (newTIWithParallelism (some n) src).map (fun it => it.workers.length) = some n) ∧
    (∀ n : Nat,
      (newTSWithParallelism (some n) st src).map (fun it => it.workers.length) = some n) := by
  refine ⟨rfl, rfl, ?_, ?_⟩
  · intro n
    simp [newTIWithParallelism, new_workers_length]
  · intro n
    simp [newTSWithParallelism, newS_workers_length]

/-- C5: Stateful variant, pool size 2, running-sum transformation with
initial state 0 cloned to each worker, source `[1,2,3,4]`: the
collected output is `[1,2,4,6]`; worker 0 receives exactly
`1, 3` (then end-markers) and worker 1 exactly `2, 4` (then an
end-marker); the final per-worker states are `1+3 = 4` and `2+4 = 6`.
In the embedding a worker's state is read and updated only inside
`statefulWorkerStep` applied to that worker's own oldest item in
`nextTS`, never by another worker or by the orchestrator, and the
per-worker accumulations confirm the states never mix. -/
theorem c5_stateful_running_sum_isolation :
    collectTS (fun s x : Nat => (s + x, s + x)) 2 0 [1, 2, 3, 4] =
      some [1, 2, 4, 6] ∧
    (runTSLog (fun s x : Nat => (s + x, s + x)) 5 (newTSLog 2 0 [1, 2, 3, 4])).map
        (fun r => ((r.2.filter (fun p => p.1 == 0)).map Prod.snd,
                   (r.2.filter (fun p => p.1 == 1)).map Prod.snd)) =
      some ([some 1, some 3, none, none], [some 2, some 4, none]) ∧
    ((runTSLog (fun s x : Nat => (s + x, s + x)) 5 (newTSLog 2 0 [1, 2, 3, 4])).map
        (fun r => (((r.2.filter (fun p => p.1 == 0)).map Prod.snd).filterMap id,
                   ((r.2.filter (fun p => p.1 == 1)).map Prod.snd).filterMap id)) =
      some ([1, 3], [2, 4])) ∧
    (iterTS (fun s x : Nat => (s + x, s + x))
        (ThreadedStatefulIterator.new 2 0 [1, 2, 3, 4]) 5).workers.map
        (fun w => w.state) = [4, 6] := by
  refine ⟨by decide, by decide, by decide, by decide⟩

section BufferedLemmas

variable {T : Type}

theorem buf_fill_aux_spec :
    ∀ (m : Nat) (s : BufferedIterator T),
      s.buffer.length + m = s.max_capacity →
      fill_buffer_auxB m s =
        if s.inner.length < m
        then ⟨[], s.buffer ++ s.inner.map some ++ [none], s.max_capacity⟩
        else ⟨s.inner.drop m, s.buffer ++ (s.inner.take m).map some, s.max_capacity⟩ := by
  intro m
  induction m with
  | zero =>
    intro s hm
    obtain ⟨inner, buffer, cap⟩ := s
    simp at hm
    rw [fill_buffer_auxB, if_neg (by omega)]
    simp
  | succ m ih =>
    intro s hm
    obtain ⟨inner, buffer, cap⟩ := s
    simp at hm
    rw [fill_buffer_auxB]
    dsimp only
    rw [if_pos (by omega)]
    cases inner with
    | nil =>
      rw [if_pos (by simp)]
      simp [List.head?]
    | cons x xs =>
      show fill_buffer_auxB m ⟨xs, buffer ++ [some x], cap⟩ = _
      rw [ih ⟨xs, buffer ++ [some x], cap⟩ (by simp; omega)]
      dsimp only
      by_cases h : xs.length < m
      · rw [if_pos h, if_pos (by simp; omega)]
        simp
      · rw [if_neg h, if_neg (by simp; omega)]
        simp

theorem bufInv_new (cap : Nat) (src : List T) :
    BufInv cap src (BufferedIterator.new src cap) :=
  ⟨0, 0, by omega, by simp [BufferedIterator.new], by simp [BufferedIterator.new],
    by omega, by simp [BufferedIterator.new], rfl⟩

theorem nextB_inv_cons (cap : Nat) (hcap : 1 ≤ cap) (x : T) (rest' : List T)
    (s : BufferedIterator T) (hinv : BufInv cap (x :: rest') s) :
    ∃ s', nextB s = some (some x, s') ∧ BufInv cap rest' s' := by
  obtain ⟨q, k, hq, hbuf, hinn, hk, hlen, hcapeq⟩ := hinv
  obtain ⟨inner, buffer, mc⟩ := s
  dsimp only at hbuf hinn hk hlen hcapeq
  subst hbuf hinn
  rw [hcapeq]
  simp only [List.length_cons] at hq
  have htakelen : ((List.take q (x :: rest')).map some).length = q := by
    simp
    omega
  have hblen : ((List.take q (x :: rest')).map some ++
      List.replicate k (none : Option T)).length = q + k := by
    simp
    omega
  rw [hblen] at hlen
  rw [nextB, fill_bufferB]
  dsimp only
  rw [hblen]
  rw [buf_fill_aux_spec (cap - (q + k)) _ (by dsimp only; omega)]
  dsimp only
  have hdroplen : (List.drop q (x :: rest')).length = rest'.length + 1 - q := by
    simp
  by_cases hm0 : cap - (q + k) = 0
  · -- pool already full: the fill is a no-op
    rw [hm0, if_neg (by omega)]
    have hq1 : 1 ≤ q := by
      rcases Nat.eq_zero_or_pos k with hk0 | hkpos
      · omega
      · have := hk hkpos
        simp at this
        omega
    obtain ⟨q', rfl⟩ : ∃ q', q = q' + 1 := ⟨q - 1, by omega⟩
    rw [List.take_succ_cons, List.drop_succ_cons, List.drop_zero, List.take_zero]
    refine ⟨_, ⟨rfl, ?_⟩⟩
    exact ⟨q', k, by omega, by simp, rfl, fun hp => by have := hk hp; simp at this; omega,
      by simp; omega, rfl⟩
  · by_cases hfill : (List.drop q (x :: rest')).length < cap - (q + k)
    · -- source exhausted during the fill: a trailing end-marker is pushed
      rw [if_pos hfill]
      rw [hdroplen] at hfill
      rcases Nat.eq_zero_or_pos k with hk0 | hkpos
      · subst hk0
        have hfull : (List.take q (x :: rest')).map some ++ List.replicate 0 (none : Option T) ++
            (List.drop q (x :: rest')).map some ++ [none] =
            some x :: (rest'.map some ++ [none]) := by
          simp [← List.map_append]
        rw [hfull]
        refine ⟨_, ⟨rfl, ?_⟩⟩
        refine ⟨rest'.length, 1, le_refl _, ?_, ?_, fun _ => rfl, ?_, rfl⟩
        · simp
        · simp
        · simp
          omega
      · have hqlen := hk hkpos
        simp at hqlen
        subst hqlen
        have hdnil : List.drop (rest'.length + 1) (x :: rest') = [] := by
          apply List.drop_eq_nil_of_le
          simp
        have hfull : (List.take (rest'.length + 1) (x :: rest')).map some ++
            List.replicate k (none : Option T) ++
            (List.drop (rest'.length + 1) (x :: rest')).map some ++ [none] =
            some x :: (rest'.map some ++ List.replicate (k + 1) none) := by
          rw [hdnil]
          simp [List.take_of_length_le (by simp : (x :: rest').length ≤ rest'.length + 1),
            List.replicate_succ' k]
        rw [hfull]
        refine ⟨_, ⟨rfl, ?_⟩⟩
        refine ⟨rest'.length, k + 1, le_refl _, ?_, ?_, fun _ => rfl, ?_, rfl⟩
        · simp
        · dsimp only
          exact (List.drop_eq_nil_of_le (by omega)).symm
        · simp
          omega
    · -- enough source values to saturate the buffer with real values
      rw [if_neg hfill]
      rw [hdroplen] at hfill
      have hknil : k = 0 := by
        rcases Nat.eq_zero_or_pos k with hk0 | hkpos
        · exact hk0
        · have := hk hkpos
          simp at this
          omega
      subst hknil
      have hjoin : (List.take q (x :: rest')).map some ++ List.replicate 0 (none : Option T) ++
          ((List.drop q (x :: rest')).take (cap - (q + 0))).map some =
          ((x :: rest').take cap).map some := by
        simp only [List.replicate_zero, List.append_nil, ← List.map_append]
        rw [← List.take_add]
        congr 2
        omega
      rw [hjoin]
      obtain ⟨c', rfl⟩ : ∃ c', cap = c' + 1 := ⟨cap - 1, by omega⟩
      rw [List.take_succ_cons]
      refine ⟨_, ⟨rfl, ?_⟩⟩
      refine ⟨c', 0, by omega, by simp, ?_,
        fun hp => absurd hp (by omega), ?_, rfl⟩
      · rw [List.drop_drop]
        rw [show q + (c' + 1 - (q + 0)) = c' + 1 by omega, List.drop_succ_cons]
      · simp

theorem nextB_inv_nil (cap : Nat) (hcap : 1 ≤ cap) (s : BufferedIterator T)
    (hinv : BufInv cap [] s) : ∃ s', nextB s = some (none, s') := by
  obtain ⟨q, k, hq, hbuf, hinn, hk, hlen, hcapeq⟩ := hinv
  obtain ⟨inner, buffer, mc⟩ := s
  dsimp only at hbuf hinn hk hlen hcapeq
  subst hbuf hinn
  rw [hcapeq]
  simp only [List.length_nil, Nat.le_zero] at hq
  subst hq
  simp only [List.take_nil, List.map_nil, List.nil_append, List.drop_nil] at hlen ⊢
  rw [nextB, fill_bufferB]
  dsimp only
  rw [List.length_replicate] at hlen ⊢
  rw [buf_fill_aux_spec (cap - k) _ (by dsimp only; rw [List.length_replicate]; omega)]
  dsimp only
  by_cases hck : k < cap
  · rw [if_pos (by simp; omega)]
    rw [show List.replicate k (none : Option T) ++ List.map some ([] : List T) ++ [none] =
        none :: List.replicate k none from by
      simp only [List.map_nil, List.append_nil]
      rw [← List.replicate_succ' k, List.replicate_succ]]
    exact ⟨_, rfl⟩
  · rw [if_neg (by simp; omega)]
    obtain ⟨k', rfl⟩ : ∃ k', k = k' + 1 := ⟨k - 1, by omega⟩
    rw [show List.replicate (k' + 1) (none : Option T) ++
        List.map some (List.take (cap - (k' + 1)) ([] : List T)) =
        none :: List.replicate k' none from by
      simp [List.replicate_succ]]
    exact ⟨_, rfl⟩

theorem runB_inv (cap : Nat) (hcap : 1 ≤ cap) :
    ∀ (rest : List T) (s : BufferedIterator T), BufInv cap rest s →
      runB (rest.length + 1) s = some rest := by
  intro rest
  induction rest with
  | nil =>
    intro s hinv
    obtain ⟨s', hs'⟩ := nextB_inv_nil cap hcap s hinv
    rw [show ([] : List T).length + 1 = 1 from rfl, runB, hs']
  | cons x rest' ih =>
    intro s hinv
    obtain ⟨s', hs', hinv'⟩ := nextB_inv_cons cap hcap x rest' s hinv
    rw [List.length_cons, runB, hs']
    dsimp only
    rw [ih s' hinv']
    rfl

end BufferedLemmas

/-- C9: With capacity at least 1 the `unwrap` inside the buffered
iterator's `next` never fails on the standard drain — the fill leaves
the buffer non-empty, the iterator yields exactly the source's
elements in order, and the drain completes; with capacity 0 the very
first `next` pops an empty buffer, i.e. the `unwrap` panics (modelled
as `none`). -/
theorem c9_buffered_yields_source_cap0_panics {T : Type} (cap : Nat)
    (src : List T) (hcap : 1 ≤ cap) :
    collectBuffered cap src = some src ∧
    nextB (BufferedIterator.new src 0) = none := by
  constructor
  · exact runB_inv cap hcap src _ (bufInv_new cap src)
  · rfl

/-- Witness for C9: capacity 3 over `[1,2,3,4,5]`. -/
theorem c9_buffered_yields_source_cap0_panics_witness :
    1 ≤ 3 ∧
    (collectBuffered 3 [1, 2, 3, 4, 5] = some [1, 2, 3, 4, 5] ∧
      nextB (BufferedIterator.new ([1, 2, 3, 4, 5] : List Nat) 0) = none) :=
  ⟨by decide, c9_buffered_yields_source_cap0_panics 3 [1, 2, 3, 4, 5] (by decide)⟩

section InterleaveLemmas

variable {T : Type}

theorem pairJoin_cons : ∀ (b xs : List T) (x : T),
    x :: pairJoin b xs = pairJoin (x :: xs) b := by
  intro b
  induction b with
  | nil =>
    intro xs x
    simp [pairJoin]
  | cons y ys ih =>
    intro xs x
    cases xs with
    | nil =>
      simp [pairJoin]
    | cons x' xs' =>
      have hih := ih xs' x'
      simp only [pairJoin] at hih ⊢
      simp only [List.zipWith_cons_cons, List.flatten_cons, List.drop_succ_cons,
        List.length_cons, List.cons_append, List.nil_append]
      rw [← hih]

theorem interleaveSpec_closed :
    ∀ (n : Nat) (a b : List T), a.length + b.length ≤ n →
      interleaveSpec true a b = pairJoin a b ∧
      interleaveSpec false a b = pairJoin b a := by
  intro n
  induction n with
  | zero =>
    intro a b h
    have ha : a = [] := by
      cases a
      · rfl
      · simp at h
    have hb : b = [] := by
      cases b
      · rfl
      · simp at h
    subst ha hb
    exact ⟨by simp [interleaveSpec, pairJoin], by simp [interleaveSpec, pairJoin]⟩
  | succ n ih =>
    intro a b h
    constructor
    · cases a with
      | nil => simp [interleaveSpec, pairJoin]
      | cons x xs =>
        rw [show interleaveSpec true (x :: xs) b = x :: interleaveSpec false xs b from by
          simp [interleaveSpec]]
        rw [(ih xs b (by simp at h; omega)).2]
        exact pairJoin_cons b xs x
    · cases b with
      | nil =>
        cases a <;> simp [interleaveSpec, pairJoin]
      | cons y ys =>
        rw [show interleaveSpec false a (y :: ys) = y :: interleaveSpec true a ys from by
          simp [interleaveSpec]]
        rw [(ih a ys (by simp at h; omega)).1]
        exact pairJoin_cons a ys y

theorem runIL_spec :
    ∀ (fuel : Nat) (a b : List T) (flag : Bool), a.length + b.length < fuel →
      runIL fuel ⟨a, b, flag⟩ = some (interleaveSpec flag a b) := by
  intro fuel
  induction fuel with
  | zero => intro a b flag h; omega
  | succ fuel ih =>
    intro a b flag h
    cases flag
    · cases b with
      | nil =>
        rw [runIL]
        simp [nextIL, interleaveSpec]
      | cons y ys =>
        rw [runIL]
        show (match (some y, (⟨a, ys, true⟩ : InterleaveIterator T)) with
          | (none, _) => some []
          | (some v, s') => (runIL fuel s').map (fun l => v :: l)) = _
        rw [show interleaveSpec false a (y :: ys) = y :: interleaveSpec true a ys from by
          simp [interleaveSpec]]
        dsimp only
        rw [ih a ys true (by simp at h; omega)]
        rfl
    · cases a with
      | nil =>
        rw [runIL]
        simp [nextIL, interleaveSpec]
      | cons x xs =>
        rw [runIL]
        show (match (some x, (⟨xs, b, false⟩ : InterleaveIterator T)) with
          | (none, _) => some []
          | (some v, s') => (runIL fuel s').map (fun l => v :: l)) = _
        rw [show interleaveSpec true (x :: xs) b = x :: interleaveSpec false xs b from by
          simp [interleaveSpec]]
        dsimp only
        rw [ih xs b false (by simp at h; omega)]
        rfl

theorem zip_flatten_length :
    ∀ (a b : List T),
      ((List.zipWith (fun u v => [u, v]) a b).flatten).length =
        2 * min a.length b.length := by
  intro a
  induction a with
  | nil => intro b; simp
  | cons x xs ih =>
    intro b
    cases b with
    | nil => simp
    | cons y ys =>
      simp [ih ys]
      omega

theorem pairJoin_length (a b : List T) :
    (pairJoin a b).length =
      if a.length ≤ b.length then 2 * a.length else 2 * b.length + 1 := by
  rw [pairJoin, List.length_append, zip_flatten_length]
  rcases Nat.lt_or_ge b.length a.length with h | h
  · rw [if_neg (by omega), Nat.min_eq_right (by omega), List.length_take,
      List.length_drop, Nat.min_eq_left (by omega)]
  · rw [if_pos h, Nat.min_eq_left h, List.drop_eq_nil_of_le h]
    simp

end InterleaveLemmas

/-- C10: Collecting the interleaving of a left sequence of length `m`
and a right sequence of length `n` yields the alternation that starts
with the left's first element and stops when the side whose turn it is
is exhausted: the flattened zipped pairs of the common prefix followed
by one extra left element exactly when `m > n` — hence exactly `2·m`
elements (`m` from each side) when `m ≤ n` and exactly `2·n + 1`
elements (`n + 1` from the left, `n` from the right) when `m > n`. -/
theorem c10_interleave_alternates_until_exhausted {T : Type} (a b : List T) :
    collectInterleave a b = some (pairJoin a b) ∧
    (collectInterleave a b).map List.length =
      some (if a.length ≤ b.length then 2 * a.length else 2 * b.length + 1) := by
  have hrun : collectInterleave a b = some (interleaveSpec true a b) :=
    runIL_spec (a.length + b.length + 1) a b true (by omega)
  have hclosed := (interleaveSpec_closed (a.length + b.length) a b (le_refl _)).1
  constructor
  · rw [hrun, hclosed]
  · rw [hrun, hclosed]
    rw [Option.map_some']
    rw [pairJoin_length]
